import Mathlib

/-
  Verification development for the spatial pattern analysis program
  (SpatialPatternRefactor.py).  The Python program is embedded shallowly:
  cells are records of a type code, planar coordinates and a layer label;
  floating point numbers are idealized as real numbers; the mutable list
  updates of the source are modelled with pure list operations.  The module
  level statement analysis_dist += 1 (source line 287) means that every
  function below that reads the analysis_dist global sees the incremented
  value; the parameter named ad in the definitions below stands for that
  incremented value, so the configured analysis distance is ad - 1.
-/

noncomputable section

namespace SP

/-- A raw input cell: [celltype, xcoord, ycoord, layer], as produced by
loadfile (source line 115). -/
structure Cell where
  ctype : ℤ
  x : ℝ
  y : ℝ
  layer : ℤ

/-- A boundary annotated cell: the raw fields plus the four edge distances
appended in positions 4..7 by the boundaries function (source lines 144-152). -/
structure ACell where
  ctype : ℤ
  x : ℝ
  y : ℝ
  layer : ℤ
  dxmin : ℝ
  dxmax : ℝ
  dymin : ℝ
  dymax : ℝ

/-- The running minimum loop of the source: starting from init, replace the
accumulator by each value that is strictly smaller (source lines 135-143
for the global extrema, lines 168-172 for the per layer extrema). -/
def fold_min (init : ℝ) (l : List ℝ) : ℝ :=
  l.foldl (fun m v => if v < m then v else m) init

/-- The running maximum loop of the source, dual to fold_min. -/
def fold_max (init : ℝ) (l : List ℝ) : ℝ :=
  l.foldl (fun m v => if v > m then v else m) init

/-- Appending the four edge distances to one cell (source lines 144-152):
abs(x - xmin), abs(xmax - x), abs(y - ymin), abs(ymax - y). -/
def annotate (xmin xmax ymin ymax : ℝ) (c : Cell) : ACell :=
  ⟨c.ctype, c.x, c.y, c.layer,
   |c.x - xmin|, |xmax - c.x|, |c.y - ymin|, |ymax - c.y|⟩

/-- The boundaries function (source lines 132-153): extrema are initialized
from the first cell (an empty input raises IndexError, modelled as none),
then a linear scan updates them, and every cell is annotated with its four
edge distances.  Returns (sp_data_mod, xmin, xmax, ymin, ymax). -/
def boundaries (sp : List Cell) : Option (List ACell × ℝ × ℝ × ℝ × ℝ) :=
  match sp with
  | [] => none
  | c0 :: _ =>
    let xmin := fold_min c0.x (sp.map (fun c => c.x))
    let xmax := fold_max c0.x (sp.map (fun c => c.x))
    let ymin := fold_min c0.y (sp.map (fun c => c.y))
    let ymax := fold_max c0.y (sp.map (fun c => c.y))
    some (sp.map (annotate xmin xmax ymin ymax), xmin, xmax, ymin, ymax)

/-- One entry of ybound_list: [layer_max, layer_min, layer id] (source line
173).  The id slot is real valued because the stitching loop of the source
can overwrite it with the float ymin when layer_num = 3. -/
structure Band where
  hi : ℝ
  lo : ℝ
  lid : ℝ

/-- Default band used by the list access helpers. -/
def bd : Band := ⟨0, 0, 0⟩

/-- The y coordinates of the cells of layer k+1 (0-based k), in data order
(source lines 162-165). -/
def layer_ys (data : List ACell) (k : ℕ) : List ℝ :=
  (data.filter (fun c => c.layer = (k : ℤ) + 1)).map (fun c => c.y)

/-- The raw band of layer k+1 (source lines 166-173): min and max of the
layer y values, initialized from the first entry.  A layer with no cells
raises IndexError at layer_list[0] (not inside any try), modelled as none. -/
def layer_band (data : List ACell) (k : ℕ) : Option Band :=
  match layer_ys data k with
  | [] => none
  | y0 :: ys => some ⟨fold_max y0 (y0 :: ys), fold_min y0 (y0 :: ys), (k : ℝ) + 1⟩

/-- The raw per layer maximum, as a total function (meaningful when the
layer is inhabited). -/
def layer_max (data : List ACell) (k : ℕ) : ℝ :=
  match layer_ys data k with
  | [] => 0
  | y0 :: ys => fold_max y0 (y0 :: ys)

/-- The raw per layer minimum, as a total function (meaningful when the
layer is inhabited). -/
def layer_min (data : List ACell) (k : ℕ) : ℝ :=
  match layer_ys data k with
  | [] => 0
  | y0 :: ys => fold_min y0 (y0 :: ys)

/-- Collect the per layer bands, propagating the failure of any layer. -/
def mapOpt (f : ℕ → Option Band) : List ℕ → Option (List Band)
  | [] => some []
  | k :: ks =>
    match f k, mapOpt f ks with
    | some b, some bs => some (b :: bs)
    | _, _ => none

/-- ybound_list after the first loop of layer_ybound (source lines 161-173). -/
def raw_bands (L : ℕ) (data : List ACell) : Option (List Band) :=
  mapOpt (layer_band data) (List.range L)

/-- Write the lo slot of band k (position 1 of the Python triple). -/
def setLo (bl : List Band) (k : ℕ) (v : ℝ) : List Band :=
  bl.set k { bl.getD k bd with lo := v }

/-- Write the hi slot of band k (position 0 of the Python triple). -/
def setHi (bl : List Band) (k : ℕ) (v : ℝ) : List Band :=
  bl.set k { bl.getD k bd with hi := v }

/-- Write the id slot of band k (position 2 of the Python triple). -/
def setId (bl : List Band) (k : ℕ) (v : ℝ) : List Band :=
  bl.set k { bl.getD k bd with lid := v }

/-- One iteration of the stitching loop of layer_ybound (source lines
176-184), for loop index k.  Inside the try block the source computes the
average of the min of band k and the max of band k+1, writes it to both,
then executes the tuple assignment ybound_list[0][0], ybound_list[0][layer_num - 1] =
ymax, ymin left to right: ybound_list[0][0] = ymax always succeeds; the
second target indexes position layer_num - 1 of the FIRST band triple, so
for layer_num >= 4 it raises IndexError which the bare except swallows, for
layer_num = 2 it overwrites the min of band 0 with ymin, and for
layer_num = 3 it overwrites the id slot of band 0 with ymin. -/
def stitch_step (L : ℕ) (ymin ymax : ℝ) (bl : List Band) (k : ℕ) : List Band :=
  let bound := ((bl.getD k bd).lo + (bl.getD (k + 1) bd).hi) / 2
  let bl1 := setLo bl k bound
  let bl2 := setHi bl1 (k + 1) bound
  let bl3 := setHi bl2 0 ymax
  if L - 1 = 1 then setLo bl3 0 ymin
  else if L - 1 = 2 then setId bl3 0 ymin
  else bl3

/-- The layer_ybound function (source lines 159-185): per layer raw bands,
then the stitching loop over adjacent pairs. -/
def layer_ybound (L : ℕ) (data : List ACell) (ymin ymax : ℝ) :
    Option (List Band) :=
  (raw_bands L data).map
    (fun bl => (List.range (L - 1)).foldl (stitch_step L ymin ymax) bl)

/-- The average boundary between raw band k and raw band k+1 (source lines
178-179). -/
def bavg (bl : List Band) (k : ℕ) : ℝ :=
  ((bl.getD k bd).lo + (bl.getD (k + 1) bd).hi) / 2

/-- Euclidean distance between two points (source lines 202-203). -/
def pair_dist (x1 y1 x2 y2 : ℝ) : ℝ :=
  Real.sqrt ((x1 - x2) ^ 2 + (y1 - y2) ^ 2)

/-- The bin index of a counted pair (source lines 205-207):
int(math.ceil(dist * (analysis_dist - 1) / interval_num)), where
analysis_dist is the incremented global ad.  The int conversion is exact on
a ceiling value, so this is the integer ceiling. -/
def array_target (ad iv : ℕ) (d : ℝ) : ℤ :=
  ⌈d * ((ad : ℝ) - 1) / (iv : ℝ)⌉

/-- Increment positions t..ad-1 of the histogram by one (source lines
208-209, the range(array_target, analysis_dist) loop); the first argument i
is the position of the head of l in the full histogram.  In the program t is
always nonnegative (d > 0, ad >= 1, iv >= 1), matching Python range
semantics without negative index wrapping. -/
def addSuffix (ad : ℕ) (t : ℤ) : ℕ → List ℝ → List ℝ
  | _, [] => []
  | i, v :: rest =>
      (if t ≤ (i : ℤ) ∧ i < ad then v + 1 else v) :: addSuffix ad t (i + 1) rest

/-- Processing of one compare cell against a fixed seed location (source
lines 200-209): type must match, the distance must satisfy
0 < dist < analysis_dist (the incremented ad), and then the suffix of the
histogram from the target bin is incremented. -/
def pair_step (ad iv : ℕ) (ct2 : ℤ) (xloc yloc : ℝ) (h : List ℝ)
    (cc : ACell) : List ℝ :=
  if cc.ctype = ct2 then
    if 0 < pair_dist xloc yloc cc.x cc.y ∧
        pair_dist xloc yloc cc.x cc.y < (ad : ℝ) then
      addSuffix ad (array_target ad iv (pair_dist xloc yloc cc.x cc.y)) 0 h
    else h
  else h

/-- Processing of one candidate seed cell (source lines 193-209): the type
must equal cell1 and all four edge distances must strictly exceed
exclude_dist; then every cell of the data is compared against it. -/
def seed_step (ad iv : ℕ) (E : ℝ) (sp : List ACell) (ct1 ct2 : ℤ)
    (h : List ℝ) (c : ACell) : List ℝ :=
  if c.ctype = ct1 ∧ E < c.dxmin ∧ E < c.dxmax ∧ E < c.dymin ∧ E < c.dymax then
    sp.foldl (pair_step ad iv ct2 c.x c.y) h
  else h

/-- The cluster function (source lines 190-211): the histogram starts as
analysis_dist (the incremented ad) zero bins and is folded over all seed
candidates. -/
def cluster (ad iv : ℕ) (E : ℝ) (sp : List ACell) (ct1 ct2 : ℤ) : List ℝ :=
  sp.foldl (seed_step ad iv E sp ct1 ct2) (List.replicate ad 0)

/-- The in place update loops of the source: for i in xrange(analysis_dist):
l[i] = g i l[i].  Used by cluster_average (lines 217-219) and by the
accumulation and division loops of sim_iterate (lines 264-268). -/
def upd_range (ad : ℕ) (g : ℕ → ℝ → ℝ) (l : List ℝ) : List ℝ :=
  (List.range ad).foldl (fun a i => a.set i (g i (a.getD i 0))) l

/-- The cluster_average function (source lines 216-220): overwrite cluster1
bin by bin with the arithmetic mean of the two histograms. -/
def cluster_average (ad : ℕ) (l1 l2 : List ℝ) : List ℝ :=
  upd_range ad (fun i v => (v + l2.getD i 0) / 2) l1

/-- The observed (or per run simulated) histogram of a cell set: a single
cluster call when the two type codes coincide, and the average of the two
directional calls otherwise (source lines 258-262 and 292-296). -/
def pair_histogram (ad iv : ℕ) (E : ℝ) (sp : List ACell) (ct1 ct2 : ℤ) :
    List ℝ :=
  if ct1 = ct2 then cluster ad iv E sp ct1 ct1
  else cluster_average ad (cluster ad iv E sp ct1 ct2) (cluster ad iv E sp ct2 ct1)

/-- The sim_iterate function (source lines 250-269).  The randomized and
re-annotated layout of run k, that is sim_boundaries(sim_gen(...)), is
supplied by the oracle gen, which models the random source.  xrange of a
non positive count is empty, so N.toNat runs are accumulated.  The final
loop divides each of the analysis_dist bins by sim_run_num; when
sim_run_num = 0 its first iteration raises ZeroDivisionError (modelled as
none), which can only happen when there is at least one bin. -/
def sim_iterate (ad iv : ℕ) (E : ℝ) (gen : ℕ → List ACell) (N : ℤ)
    (ct1 ct2 : ℤ) : Option (List ℝ) :=
  let track := (List.range N.toNat).foldl
    (fun acc k =>
      upd_range ad (fun i v => v + (pair_histogram ad iv E (gen k) ct1 ct2).getD i 0) acc)
    (List.replicate ad 0)
  if N = 0 ∧ 0 < ad then none
  else some (upd_range ad (fun _ v => v / (N : ℝ)) track)

/-- The sim_correct function (source lines 273-281): a list of
analysis_dist zeros, each overwritten by raw[i] / sim[i] when both indices
are in range and the divisor is nonzero; an IndexError or ZeroDivisionError
is swallowed by the bare except, leaving the slot at its 0.0 initialization. -/
def sim_correct (ad : ℕ) (raw sim : List ℝ) : List ℝ :=
  (List.range ad).map
    (fun i =>
      if i < raw.length ∧ i < sim.length ∧ sim.getD i 0 ≠ 0 then
        raw.getD i 0 / sim.getD i 0
      else 0)

/-- Modelled from the spec: the Density Corrector of spec section 4.6
returns observed / simulated bin by bin and an undefined or null sentinel
(here none) at every index whose simulated value is zero.  This definition
follows the words of the spec and is compared against sim_correct, the
definition taken from the source. -/
def sim_correct_spec (raw sim : List ℝ) : List (Option ℝ) :=
  List.zipWith (fun r s => if s = 0 then none else some (r / s)) raw sim

/-- The whole downstream pipeline for one observed cell set: observed
histogram, simulated baseline, density correction (source lines 292-306). -/
def sp_output (ad iv : ℕ) (E : ℝ) (sp : List ACell) (gen : ℕ → List ACell)
    (N : ℤ) (ct1 ct2 : ℤ) : Option (List ℝ) :=
  (sim_iterate ad iv E gen N ct1 ct2).map
    (fun sim => sim_correct ad (pair_histogram ad iv E sp ct1 ct2) sim)

/-- Monotone non decreasing histogram, read through getD with default 0. -/
def Mono (l : List ℝ) : Prop :=
  ∀ i, i + 1 < l.length → l.getD i 0 ≤ l.getD (i + 1) 0

/-- The cell set of the end to end scenario of the spec: three cells of
type 1 at (0,0), (10,0), (50,0), all in layer 1. -/
def exCellsC1 : List Cell :=
  [⟨1, 0, 0, 1⟩, ⟨1, 10, 0, 1⟩, ⟨1, 50, 0, 1⟩]

/-- The annotation that boundaries produces on exCellsC1: the bounding box
is [0,50] x [0,0], so every cell is at distance zero from both y edges. -/
def exAnnotC1 : List ACell :=
  [⟨1, 0, 0, 1, 0, 50, 0, 0⟩, ⟨1, 10, 0, 1, 10, 40, 0, 0⟩,
   ⟨1, 50, 0, 1, 50, 0, 0, 0⟩]

/-- A six layer cell set whose global minimum y = 0 lies in layer 1 rather
than in layer 6: layer k holds one cell at y = 7 - k, and layer 1 holds an
additional cell at y = 0. -/
def exCellsC2 : List Cell :=
  [⟨1, 0, 6, 1⟩, ⟨1, 0, 5, 2⟩, ⟨1, 0, 4, 3⟩, ⟨1, 0, 3, 4⟩,
   ⟨1, 0, 2, 5⟩, ⟨1, 0, 1, 6⟩, ⟨1, 0, 0, 1⟩]

/-- The annotation that boundaries produces on exCellsC2: the bounding box
is the single point segment x in [0,0] and y in [0,6]. -/
def exAnnotC2 : List ACell :=
  [⟨1, 0, 6, 1, 0, 0, 6, 0⟩, ⟨1, 0, 5, 2, 0, 0, 5, 1⟩,
   ⟨1, 0, 4, 3, 0, 0, 4, 2⟩, ⟨1, 0, 3, 4, 0, 0, 3, 3⟩,
   ⟨1, 0, 2, 5, 0, 0, 2, 4⟩, ⟨1, 0, 1, 6, 0, 0, 1, 5⟩,
   ⟨1, 0, 0, 1, 0, 0, 0, 6⟩]

/-- A four layer annotated cell set whose layers are ordered by descending
y: layer k holds one cell at y = 4 - k. -/
def exData2 : List ACell :=
  [⟨1, 0, 3, 1, 0, 0, 3, 0⟩, ⟨1, 0, 2, 2, 0, 0, 2, 1⟩,
   ⟨1, 0, 1, 3, 0, 0, 1, 2⟩, ⟨1, 0, 0, 4, 0, 0, 0, 3⟩]

section ListHelpers

variable {α : Type}

theorem getD_set_self (l : List α) (n : ℕ) (a d : α) (h : n < l.length) :
    (l.set n a).getD n d = a := by
  induction l generalizing n with
  | nil => simp at h
  | cons x xs ih =>
    cases n with
    | zero => simp [List.set, List.getD_cons_zero]
    | succ m =>
      simp only [List.set, List.getD_cons_succ]
      exact ih m (by simpa using h)

theorem getD_set_ne (l : List α) (n m : ℕ) (a d : α) (h : m ≠ n) :
    (l.set n a).getD m d = l.getD m d := by
  induction l generalizing n m with
  | nil => simp [List.set]
  | cons x xs ih =>
    cases n with
    | zero =>
      cases m with
      | zero => exact absurd rfl h
      | succ mm => simp [List.set, List.getD_cons_succ]
    | succ nn =>
      cases m with
      | zero => simp [List.set, List.getD_cons_zero]
      | succ mm =>
        simp only [List.set, List.getD_cons_succ]
        exact ih nn mm (fun he => h (by simp [he]))

theorem set_oob (l : List α) (n : ℕ) (a : α) (h : l.length ≤ n) :
    l.set n a = l := by
  induction l generalizing n with
  | nil => simp
  | cons x xs ih =>
    cases n with
    | zero => simp at h
    | succ m => simp only [List.set]; rw [ih m (by simpa using h)]

theorem set_getD_id (l : List α) (n : ℕ) (d : α) :
    l.set n (l.getD n d) = l := by
  induction l generalizing n with
  | nil => simp
  | cons x xs ih =>
    cases n with
    | zero => simp [List.set, List.getD_cons_zero]
    | succ m => simp only [List.set, List.getD_cons_succ]; rw [ih m]

theorem getD_replicate (n i : ℕ) (v : α) : (List.replicate n v).getD i v = v := by
  induction n generalizing i with
  | zero => simp [List.getD_eq_default]
  | succ m ih =>
    cases i with
    | zero => simp [List.replicate, List.getD_cons_zero]
    | succ j => simp only [List.replicate, List.getD_cons_succ]; exact ih j

theorem getD_replicate_lt (n i : ℕ) (v d : α) (h : i < n) :
    (List.replicate n v).getD i d = v := by
  induction n generalizing i with
  | zero => omega
  | succ m ih =>
    cases i with
    | zero => simp [List.replicate, List.getD_cons_zero]
    | succ j =>
      simp only [List.replicate, List.getD_cons_succ]
      exact ih j (by omega)

theorem getD_range_map {β : Type} (f : ℕ → β) (d : β) (n i : ℕ) (h : i < n) :
    ((List.range n).map f).getD i d = f i := by
  induction n with
  | zero => omega
  | succ m ih =>
    rw [List.range_succ, List.map_append]
    rcases Nat.lt_or_ge i m with hlt | hge
    · rw [List.getD_append _ _ _ _ (by simpa using hlt)]
      exact ih hlt
    · have hi : i = m := by omega
      subst hi
      have hlen : ((List.range i).map f).length = i := by simp
      simp [List.getD, List.getElem?_append_right, hlen]

theorem foldl_preserve {β : Type} (P : β → Prop) (step : β → α → β)
    (hstep : ∀ acc c, P acc → P (step acc c)) :
    ∀ (l : List α) (init : β), P init → P (l.foldl step init) := by
  intro l
  induction l with
  | nil => intro init h; exact h
  | cons x xs ih => intro init h; exact ih (step init x) (hstep init x h)

theorem foldl_fixed {β : Type} (step : β → α → β) (l : List α) (init : β)
    (hstep : ∀ acc c, c ∈ l → step acc c = acc) :
    l.foldl step init = init := by
  induction l generalizing init with
  | nil => rfl
  | cons x xs ih =>
    rw [List.foldl_cons, hstep init x (by simp)]
    exact ih init (fun acc c hc => hstep acc c (by simp [hc]))

end ListHelpers

section UpdRange

theorem upd_range_zero (g : ℕ → ℝ → ℝ) (l : List ℝ) : upd_range 0 g l = l := rfl

theorem upd_range_succ (n : ℕ) (g : ℕ → ℝ → ℝ) (l : List ℝ) :
    upd_range (n + 1) g l =
      (upd_range n g l).set n (g n ((upd_range n g l).getD n 0)) := by
  simp [upd_range, List.range_succ, List.foldl_append]

theorem upd_range_length (n : ℕ) (g : ℕ → ℝ → ℝ) (l : List ℝ) :
    (upd_range n g l).length = l.length := by
  induction n with
  | zero => rfl
  | succ m ih => rw [upd_range_succ, List.length_set, ih]

theorem upd_range_getD_ge (n : ℕ) (g : ℕ → ℝ → ℝ) (l : List ℝ) (i : ℕ)
    (h : n ≤ i) : (upd_range n g l).getD i 0 = l.getD i 0 := by
  induction n with
  | zero => rfl
  | succ m ih =>
    rw [upd_range_succ, getD_set_ne _ _ _ _ _ (by omega)]
    exact ih (by omega)

theorem upd_range_getD (n : ℕ) (g : ℕ → ℝ → ℝ) (l : List ℝ) (i : ℕ)
    (hi : i < n) (hlen : n ≤ l.length) :
    (upd_range n g l).getD i 0 = g i (l.getD i 0) := by
  induction n with
  | zero => omega
  | succ m ih =>
    rw [upd_range_succ]
    rcases Nat.lt_or_ge i m with hlt | hge
    · rw [getD_set_ne _ _ _ _ _ (by omega)]
      exact ih hlt (by omega)
    · have hi' : i = m := by omega
      subst hi'
      rw [getD_set_self _ _ _ _ (by rw [upd_range_length]; omega)]
      rw [upd_range_getD_ge i g l i (by omega)]

theorem upd_range_id (n : ℕ) (g : ℕ → ℝ → ℝ) (l : List ℝ)
    (h : ∀ i, i < n → g i (l.getD i 0) = l.getD i 0) :
    upd_range n g l = l := by
  induction n with
  | zero => rfl
  | succ m ih =>
    rw [upd_range_succ, ih (fun i hi => h i (by omega))]
    rw [h m (by omega)]
    exact set_getD_id l m 0

end UpdRange

section ClusterLemmas

theorem addSuffix_length (ad : ℕ) (t : ℤ) (l : List ℝ) :
    ∀ i, (addSuffix ad t i l).length = l.length := by
  induction l with
  | nil => intro i; rfl
  | cons v rest ih => intro i; simp [addSuffix, ih (i + 1)]

theorem addSuffix_getD (ad : ℕ) (t : ℤ) (l : List ℝ) :
    ∀ (i j : ℕ), j < l.length →
      (addSuffix ad t i l).getD j 0 =
        if t ≤ (i : ℤ) + j ∧ i + j < ad then l.getD j 0 + 1 else l.getD j 0 := by
  induction l with
  | nil => intro i j h; simp at h
  | cons v rest ih =>
    intro i j h
    cases j with
    | zero =>
      simp only [addSuffix, List.getD_cons_zero]
      split_ifs <;> try rfl
      all_goals exfalso
      all_goals rename_i h1 h2
      all_goals push_cast at h1 h2
      all_goals omega
    | succ m =>
      simp only [addSuffix, List.getD_cons_succ]
      rw [ih (i + 1) m (by simpa using h)]
      split_ifs <;> try rfl
      all_goals exfalso
      all_goals rename_i h1 h2
      all_goals push_cast at h1 h2
      all_goals omega

theorem addSuffix_id (ad : ℕ) (t : ℤ)
    (h : ∀ i : ℕ, ¬(t ≤ (i : ℤ) ∧ i < ad)) :
    ∀ (i : ℕ) (l : List ℝ), addSuffix ad t i l = l := by
  intro i l
  induction l generalizing i with
  | nil => rfl
  | cons v rest ih => simp [addSuffix, if_neg (h i), ih (i + 1)]

theorem addSuffix_getD_zero (ad : ℕ) (t : ℤ) (ht : 1 ≤ t) (l : List ℝ) :
    (addSuffix ad t 0 l).getD 0 0 = l.getD 0 0 := by
  cases l with
  | nil => rfl
  | cons v rest =>
    simp only [addSuffix, List.getD_cons_zero]
    rw [if_neg (by omega)]

theorem pair_step_length (ad iv : ℕ) (ct2 : ℤ) (xloc yloc : ℝ)
    (h : List ℝ) (cc : ACell) :
    (pair_step ad iv ct2 xloc yloc h cc).length = h.length := by
  unfold pair_step
  split
  · split
    · exact addSuffix_length ad _ h 0
    · rfl
  · rfl

theorem seed_step_preserve (P : List ℝ → Prop) (ad iv : ℕ) (E : ℝ)
    (sp : List ACell) (ct1 ct2 : ℤ)
    (hp : ∀ (h : List ℝ) (cc : ACell) (xloc yloc : ℝ),
      P h → P (pair_step ad iv ct2 xloc yloc h cc)) :
    ∀ (h : List ℝ) (c : ACell), P h → P (seed_step ad iv E sp ct1 ct2 h c) := by
  intro h c hP
  unfold seed_step
  split
  · exact foldl_preserve P _ (fun acc cc ha => hp acc cc c.x c.y ha) sp h hP
  · exact hP

theorem cluster_preserve (P : List ℝ → Prop) (ad iv : ℕ) (E : ℝ)
    (sp : List ACell) (ct1 ct2 : ℤ)
    (hp : ∀ (h : List ℝ) (cc : ACell) (xloc yloc : ℝ),
      P h → P (pair_step ad iv ct2 xloc yloc h cc))
    (hinit : P (List.replicate ad 0)) :
    P (cluster ad iv E sp ct1 ct2) :=
  foldl_preserve P _ (seed_step_preserve P ad iv E sp ct1 ct2 hp) sp _ hinit

theorem cluster_length (ad iv : ℕ) (E : ℝ) (sp : List ACell) (ct1 ct2 : ℤ) :
    (cluster ad iv E sp ct1 ct2).length = ad := by
  have := cluster_preserve (fun l => l.length = ad) ad iv E sp ct1 ct2
    (fun h cc xloc yloc hP => by
      show (pair_step ad iv ct2 xloc yloc h cc).length = ad
      rw [pair_step_length]; exact hP)
    (by simp)
  exact this

theorem cluster_empty (ad iv : ℕ) (E : ℝ) (ct1 ct2 : ℤ) :
    cluster ad iv E [] ct1 ct2 = List.replicate ad 0 := rfl

theorem array_target_pos (ad iv : ℕ) (h2 : 2 ≤ ad) (h1 : 1 ≤ iv) (d : ℝ)
    (hd : 0 < d) : 1 ≤ array_target ad iv d := by
  unfold array_target
  have hnum : (0 : ℝ) < d * ((ad : ℝ) - 1) := by
    apply mul_pos hd
    have : (2 : ℝ) ≤ (ad : ℝ) := by exact_mod_cast h2
    linarith
  have hden : (0 : ℝ) < (iv : ℝ) := by
    have : (1 : ℝ) ≤ (iv : ℝ) := by exact_mod_cast h1
    linarith
  exact Int.ceil_pos.mpr (div_pos hnum hden)

theorem cluster_getD_zero (ad iv : ℕ) (h2 : 2 ≤ ad) (h1 : 1 ≤ iv) (E : ℝ)
    (sp : List ACell) (ct1 ct2 : ℤ) :
    (cluster ad iv E sp ct1 ct2).getD 0 0 = 0 := by
  have := cluster_preserve (fun l => l.getD 0 0 = 0) ad iv E sp ct1 ct2
    (fun h cc xloc yloc hP => by
      unfold pair_step
      split
      · split
        next hgd =>
          rw [addSuffix_getD_zero ad _ (array_target_pos ad iv h2 h1 _ hgd.1) h]
          exact hP
        next => exact hP
      · exact hP)
    (by cases ad with
        | zero => rfl
        | succ m => simp [List.replicate, List.getD_cons_zero])
  exact this

theorem mono_addSuffix (ad : ℕ) (t : ℤ) (l : List ℝ)
    (hlen : l.length = ad) (hm : Mono l) : Mono (addSuffix ad t 0 l) := by
  intro i hi
  rw [addSuffix_length] at hi
  rw [addSuffix_getD ad t l 0 i (by omega), addSuffix_getD ad t l 0 (i + 1) (by omega)]
  have hiad : i < ad := by omega
  have hi1ad : i + 1 < ad := by omega
  have hml := hm i hi
  rcases le_or_lt t (i : ℤ) with hle | hgt
  · rw [if_pos ⟨by omega, by omega⟩, if_pos ⟨by push_cast; omega, by omega⟩]
    linarith
  · rw [if_neg (by omega)]
    rcases le_or_lt t ((i : ℤ) + 1) with hle1 | hgt1
    · rw [if_pos ⟨by push_cast; omega, by omega⟩]
      linarith
    · rw [if_neg (by push_cast; omega)]
      exact hml

theorem cluster_mono (ad iv : ℕ) (E : ℝ) (sp : List ACell) (ct1 ct2 : ℤ) :
    Mono (cluster ad iv E sp ct1 ct2) := by
  have := cluster_preserve (fun l => Mono l ∧ l.length = ad) ad iv E sp ct1 ct2
    (fun h cc xloc yloc hP => by
      unfold pair_step
      split
      · split
        · exact ⟨mono_addSuffix ad _ h hP.2 hP.1, by rw [addSuffix_length]; exact hP.2⟩
        · exact hP
      · exact hP)
    (⟨fun i hi => by simp [getD_replicate], by simp⟩)
  exact this.1

end ClusterLemmas

section FoldLemmas

theorem fold_min_le_init (init : ℝ) (l : List ℝ) : fold_min init l ≤ init := by
  induction l generalizing init with
  | nil => exact le_refl _
  | cons x xs ih =>
    unfold fold_min at *
    rw [List.foldl_cons]
    refine le_trans (ih _) ?_
    split <;> linarith

theorem fold_min_le (init : ℝ) (l : List ℝ) (v : ℝ) (h : v ∈ l) :
    fold_min init l ≤ v := by
  induction l generalizing init with
  | nil => simp at h
  | cons x xs ih =>
    unfold fold_min at *
    rw [List.foldl_cons]
    rcases List.mem_cons.mp h with rfl | hxs
    · refine le_trans (fold_min_le_init _ xs) ?_
      split <;> linarith
    · exact ih _ hxs

theorem fold_min_ge (B init : ℝ) (l : List ℝ) (hinit : B ≤ init)
    (h : ∀ v ∈ l, B ≤ v) : B ≤ fold_min init l := by
  induction l generalizing init with
  | nil => exact hinit
  | cons x xs ih =>
    unfold fold_min at *
    rw [List.foldl_cons]
    refine ih _ ?_ (fun v hv => h v (by simp [hv]))
    have hx := h x (by simp)
    split <;> linarith

theorem fold_max_ge_init (init : ℝ) (l : List ℝ) : init ≤ fold_max init l := by
  induction l generalizing init with
  | nil => exact le_refl _
  | cons x xs ih =>
    unfold fold_max at *
    rw [List.foldl_cons]
    refine le_trans ?_ (ih _)
    split <;> linarith

theorem fold_max_ge (init : ℝ) (l : List ℝ) (v : ℝ) (h : v ∈ l) :
    v ≤ fold_max init l := by
  induction l generalizing init with
  | nil => simp at h
  | cons x xs ih =>
    unfold fold_max at *
    rw [List.foldl_cons]
    rcases List.mem_cons.mp h with rfl | hxs
    · refine le_trans ?_ (fold_max_ge_init _ xs)
      split <;> linarith
    · exact ih _ hxs

theorem fold_max_le (B init : ℝ) (l : List ℝ) (hinit : init ≤ B)
    (h : ∀ v ∈ l, v ≤ B) : fold_max init l ≤ B := by
  induction l generalizing init with
  | nil => exact hinit
  | cons x xs ih =>
    unfold fold_max at *
    rw [List.foldl_cons]
    refine ih _ ?_ (fun v hv => h v (by simp [hv]))
    have hx := h x (by simp)
    split <;> linarith

end FoldLemmas

section PipelineLemmas

theorem cluster_all_excluded (ad iv : ℕ) (E : ℝ) (sp : List ACell)
    (ct1 ct2 : ℤ)
    (h : ∀ c ∈ sp,
      ¬(c.ctype = ct1 ∧ E < c.dxmin ∧ E < c.dxmax ∧ E < c.dymin ∧ E < c.dymax)) :
    cluster ad iv E sp ct1 ct2 = List.replicate ad 0 := by
  unfold cluster
  exact foldl_fixed _ sp _ (fun acc c hc => by
    unfold seed_step
    rw [if_neg (h c hc)])

theorem cluster_average_length (ad : ℕ) (l1 l2 : List ℝ) :
    (cluster_average ad l1 l2).length = l1.length :=
  upd_range_length ad _ l1

theorem cluster_average_getD (ad : ℕ) (l1 l2 : List ℝ) (i : ℕ) (hi : i < ad)
    (hlen : ad ≤ l1.length) :
    (cluster_average ad l1 l2).getD i 0 = (l1.getD i 0 + l2.getD i 0) / 2 :=
  upd_range_getD ad _ l1 i hi hlen

theorem pair_histogram_length (ad iv : ℕ) (E : ℝ) (sp : List ACell)
    (ct1 ct2 : ℤ) : (pair_histogram ad iv E sp ct1 ct2).length = ad := by
  unfold pair_histogram
  split
  · exact cluster_length ..
  · rw [cluster_average_length, cluster_length]

theorem pair_histogram_getD_zero (ad iv : ℕ) (h2 : 2 ≤ ad) (h1 : 1 ≤ iv)
    (E : ℝ) (sp : List ACell) (ct1 ct2 : ℤ) :
    (pair_histogram ad iv E sp ct1 ct2).getD 0 0 = 0 := by
  unfold pair_histogram
  split
  · exact cluster_getD_zero ad iv h2 h1 E sp ct1 ct1
  · rw [cluster_average_getD ad _ _ 0 (by omega) (by rw [cluster_length])]
    rw [cluster_getD_zero ad iv h2 h1 E sp ct1 ct2,
      cluster_getD_zero ad iv h2 h1 E sp ct2 ct1]
    norm_num

theorem sim_iterate_neg (ad iv : ℕ) (E : ℝ) (gen : ℕ → List ACell)
    (N : ℤ) (ct1 ct2 : ℤ) (hN : N < 0) :
    sim_iterate ad iv E gen N ct1 ct2 = some (List.replicate ad 0) := by
  unfold sim_iterate
  have h0 : N.toNat = 0 := Int.toNat_of_nonpos (le_of_lt hN)
  rw [h0]
  simp only [List.range_zero, List.foldl_nil]
  rw [if_neg (fun hand => by omega)]
  congr 1
  apply upd_range_id
  intro i hi
  rw [getD_replicate]
  exact zero_div _

theorem sim_iterate_zero (ad iv : ℕ) (E : ℝ) (gen : ℕ → List ACell)
    (ct1 ct2 : ℤ) (had : 0 < ad) :
    sim_iterate ad iv E gen 0 ct1 ct2 = none := by
  unfold sim_iterate
  rw [if_pos ⟨rfl, had⟩]

theorem sim_iterate_some_length (ad iv : ℕ) (E : ℝ) (gen : ℕ → List ACell)
    (N : ℤ) (ct1 ct2 : ℤ) (out : List ℝ)
    (h : sim_iterate ad iv E gen N ct1 ct2 = some out) : out.length = ad := by
  unfold sim_iterate at h
  split at h
  · exact absurd h (by simp)
  · have hout := (Option.some.injEq ..).mp h
    have htrack : ∀ (runs : List ℕ) (init : List ℝ), init.length = ad →
        (runs.foldl (fun acc k =>
          upd_range ad (fun i v => v + (pair_histogram ad iv E (gen k) ct1 ct2).getD i 0) acc)
          init).length = ad := by
      intro runs
      induction runs with
      | nil => intro init hi; exact hi
      | cons r rs ih =>
        intro init hi
        rw [List.foldl_cons]
        exact ih _ (by rw [upd_range_length]; exact hi)
    rw [← hout, upd_range_length]
    exact htrack _ _ (by simp)

theorem sim_iterate_some_getD_zero (ad iv : ℕ) (h2 : 2 ≤ ad) (h1 : 1 ≤ iv)
    (E : ℝ) (gen : ℕ → List ACell) (N : ℤ) (ct1 ct2 : ℤ) (out : List ℝ)
    (h : sim_iterate ad iv E gen N ct1 ct2 = some out) : out.getD 0 0 = 0 := by
  unfold sim_iterate at h
  split at h
  · exact absurd h (by simp)
  · have hout := (Option.some.injEq ..).mp h
    have htrack : ∀ (runs : List ℕ) (init : List ℝ),
        init.length = ad ∧ init.getD 0 0 = 0 →
        ((runs.foldl (fun acc k =>
          upd_range ad (fun i v => v + (pair_histogram ad iv E (gen k) ct1 ct2).getD i 0) acc)
          init).length = ad ∧
         (runs.foldl (fun acc k =>
          upd_range ad (fun i v => v + (pair_histogram ad iv E (gen k) ct1 ct2).getD i 0) acc)
          init).getD 0 0 = 0) := by
      intro runs
      induction runs with
      | nil => intro init hi; exact hi
      | cons r rs ih =>
        intro init hi
        rw [List.foldl_cons]
        refine ih _ ⟨by rw [upd_range_length]; exact hi.1, ?_⟩
        rw [upd_range_getD ad _ _ 0 (by omega) (by omega)]
        rw [hi.2, pair_histogram_getD_zero ad iv h2 h1 E (gen r) ct1 ct2]
        norm_num
    have htr := htrack (List.range N.toNat) (List.replicate ad 0)
      ⟨by simp, by rw [getD_replicate]⟩
    rw [← hout, upd_range_getD ad _ _ 0 (by omega) (by omega), htr.2]
    exact zero_div _

theorem sim_correct_length (ad : ℕ) (raw sim : List ℝ) :
    (sim_correct ad raw sim).length = ad := by
  simp [sim_correct]

theorem sim_correct_getD (ad : ℕ) (raw sim : List ℝ) (i : ℕ) (hi : i < ad) :
    (sim_correct ad raw sim).getD i 0 =
      if i < raw.length ∧ i < sim.length ∧ sim.getD i 0 ≠ 0 then
        raw.getD i 0 / sim.getD i 0
      else 0 :=
  getD_range_map _ 0 ad i hi

end PipelineLemmas

section StitchLemmas

theorem setLo_length (bl : List Band) (k : ℕ) (v : ℝ) :
    (setLo bl k v).length = bl.length := by simp [setLo]

theorem setHi_length (bl : List Band) (k : ℕ) (v : ℝ) :
    (setHi bl k v).length = bl.length := by simp [setHi]

theorem setId_length (bl : List Band) (k : ℕ) (v : ℝ) :
    (setId bl k v).length = bl.length := by simp [setId]

theorem getD_setLo_self (bl : List Band) (k : ℕ) (v : ℝ) (h : k < bl.length) :
    (setLo bl k v).getD k bd = { bl.getD k bd with lo := v } :=
  getD_set_self bl k _ bd h

theorem getD_setLo_ne (bl : List Band) (k j : ℕ) (v : ℝ) (h : j ≠ k) :
    (setLo bl k v).getD j bd = bl.getD j bd :=
  getD_set_ne bl k j _ bd h

theorem getD_setHi_self (bl : List Band) (k : ℕ) (v : ℝ) (h : k < bl.length) :
    (setHi bl k v).getD k bd = { bl.getD k bd with hi := v } :=
  getD_set_self bl k _ bd h

theorem getD_setHi_ne (bl : List Band) (k j : ℕ) (v : ℝ) (h : j ≠ k) :
    (setHi bl k v).getD j bd = bl.getD j bd :=
  getD_set_ne bl k j _ bd h

theorem stitch_step_length (L : ℕ) (ymin ymax : ℝ) (bl : List Band) (k : ℕ) :
    (stitch_step L ymin ymax bl k).length = bl.length := by
  simp only [stitch_step]
  split_ifs <;> simp [setLo, setHi, setId]

theorem stitch_step_unfold (L : ℕ) (hL : 4 ≤ L) (ymin ymax : ℝ)
    (bl : List Band) (k : ℕ) :
    stitch_step L ymin ymax bl k =
      setHi (setHi (setLo bl k (bavg bl k)) (k + 1) (bavg bl k)) 0 ymax := by
  simp only [stitch_step, bavg]
  rw [if_neg (by omega), if_neg (by omega)]

theorem stitch_getD_zero_of_pos (L : ℕ) (hL : 4 ≤ L) (ymin ymax : ℝ)
    (bl : List Band) (k : ℕ) (hk : 1 ≤ k) (hlen : 0 < bl.length) :
    (stitch_step L ymin ymax bl k).getD 0 bd =
      { bl.getD 0 bd with hi := ymax } := by
  rw [stitch_step_unfold L hL]
  rw [getD_setHi_self _ 0 _ (by rw [setHi_length, setLo_length]; exact hlen)]
  rw [getD_setHi_ne _ _ _ _ (by omega), getD_setLo_ne _ _ _ _ (by omega)]

theorem stitch_getD_k_of_pos (L : ℕ) (hL : 4 ≤ L) (ymin ymax : ℝ)
    (bl : List Band) (k : ℕ) (hk : 1 ≤ k) (hlen : k + 1 < bl.length) :
    (stitch_step L ymin ymax bl k).getD k bd =
      { bl.getD k bd with lo := bavg bl k } := by
  rw [stitch_step_unfold L hL]
  rw [getD_setHi_ne _ _ _ _ (by omega), getD_setHi_ne _ _ _ _ (by omega)]
  rw [getD_setLo_self _ _ _ (by omega)]

theorem stitch_getD_k1 (L : ℕ) (hL : 4 ≤ L) (ymin ymax : ℝ)
    (bl : List Band) (k : ℕ) (hlen : k + 1 < bl.length) :
    (stitch_step L ymin ymax bl k).getD (k + 1) bd =
      { bl.getD (k + 1) bd with hi := bavg bl k } := by
  rw [stitch_step_unfold L hL]
  rw [getD_setHi_ne _ _ _ _ (by omega)]
  rw [getD_setHi_self _ _ _ (by rw [setLo_length]; exact hlen)]
  rw [getD_setLo_ne _ _ _ _ (by omega)]

theorem stitch_getD_other (L : ℕ) (hL : 4 ≤ L) (ymin ymax : ℝ)
    (bl : List Band) (k j : ℕ) (hj0 : j ≠ 0) (hjk : j ≠ k) (hjk1 : j ≠ k + 1) :
    (stitch_step L ymin ymax bl k).getD j bd = bl.getD j bd := by
  rw [stitch_step_unfold L hL]
  rw [getD_setHi_ne _ _ _ _ hj0, getD_setHi_ne _ _ _ _ hjk1,
    getD_setLo_ne _ _ _ _ hjk]

theorem stitch_getD_base (L : ℕ) (hL : 4 ≤ L) (ymin ymax : ℝ)
    (bl : List Band) (hlen : 1 < bl.length) :
    (stitch_step L ymin ymax bl 0).getD 0 bd =
      ⟨ymax, bavg bl 0, (bl.getD 0 bd).lid⟩ := by
  rw [stitch_step_unfold L hL]
  rw [getD_setHi_self _ 0 _ (by rw [setHi_length, setLo_length]; omega)]
  rw [getD_setHi_ne _ _ _ _ (by omega)]
  rw [getD_setLo_self _ _ _ (by omega)]

theorem stitch_closed_form (L : ℕ) (hL : 4 ≤ L) (ymin ymax : ℝ) (bl0 : List Band)
    (hlen : bl0.length = L) :
    ∀ t, 1 ≤ t → t ≤ L - 1 →
      (((List.range t).foldl (stitch_step L ymin ymax) bl0).length = L ∧
       ∀ j, j < L →
        ((List.range t).foldl (stitch_step L ymin ymax) bl0).getD j bd =
          ⟨if j = 0 then ymax
            else if j ≤ t then bavg bl0 (j - 1) else (bl0.getD j bd).hi,
           if j + 1 ≤ t then bavg bl0 j else (bl0.getD j bd).lo,
           (bl0.getD j bd).lid⟩) := by
  intro t
  induction t with
  | zero => omega
  | succ m ih =>
    intro h1 hm
    rcases Nat.eq_zero_or_pos m with hm0 | hmpos
    · subst hm0
      have hr : List.range 1 = [0] := rfl
      rw [hr]
      simp only [List.foldl_cons, List.foldl_nil]
      constructor
      · rw [stitch_step_length, hlen]
      · intro j hj
        rcases Nat.eq_zero_or_pos j with rfl | hjpos
        · rw [stitch_getD_base L hL ymin ymax bl0 (by omega)]
          split_ifs <;> first | rfl | (exfalso; first | assumption | omega)
        · rcases Nat.lt_or_ge j 2 with hj2 | hj2
          · have hj1 : j = 1 := by omega
            subst hj1
            rw [stitch_getD_k1 L hL ymin ymax bl0 0 (by omega)]
            split_ifs <;> first | rfl | (exfalso; first | assumption | omega)
          · rw [stitch_getD_other L hL ymin ymax bl0 0 j (by omega) (by omega)
              (by omega)]
            split_ifs <;> first | rfl | (exfalso; first | assumption | omega)
    · have hstep := ih hmpos (by omega)
      have hr : List.range (m + 1) = List.range m ++ [m] := by
        simpa using List.range_succ m
      rw [hr, List.foldl_append]
      simp only [List.foldl_cons, List.foldl_nil]
      set S := (List.range m).foldl (stitch_step L ymin ymax) bl0 with hS
      have hSlen : S.length = L := hstep.1
      have hSm := hstep.2 m (by omega)
      have hSm1 := hstep.2 (m + 1) (by omega)
      have hbound : bavg S m = bavg bl0 m := by
        unfold bavg
        rw [hSm, hSm1]
        simp only
        rw [if_neg (by omega : ¬(m + 1 ≤ m)), if_neg (by omega : ¬(m + 1 = 0)),
          if_neg (by omega : ¬(m + 1 ≤ m))]
      constructor
      · rw [stitch_step_length, hSlen]
      · intro j hj
        rcases Nat.eq_zero_or_pos j with rfl | hjpos
        · rw [stitch_getD_zero_of_pos L hL ymin ymax S m hmpos (by omega)]
          rw [hstep.2 0 (by omega)]
          split_ifs <;> first | rfl | (exfalso; first | assumption | omega)
        · by_cases hjm : j = m
          · subst hjm
            rw [stitch_getD_k_of_pos L hL ymin ymax S j hjpos (by omega)]
            rw [hbound, hSm]
            split_ifs <;> first | rfl | (exfalso; first | assumption | omega)
          · by_cases hjm1 : j = m + 1
            · subst hjm1
              rw [stitch_getD_k1 L hL ymin ymax S m (by omega)]
              rw [hbound, hSm1]
              split_ifs <;> first | rfl | (exfalso; first | assumption | omega)
            · rw [stitch_getD_other L hL ymin ymax S m j (by omega) hjm hjm1]
              rw [hstep.2 j (by omega)]
              split_ifs <;> first | rfl | (exfalso; first | assumption | omega)

end StitchLemmas

section LayerLemmas

theorem layer_band_eq (data : List ACell) (k : ℕ) (h : layer_ys data k ≠ []) :
    layer_band data k =
      some ⟨layer_max data k, layer_min data k, (k : ℝ) + 1⟩ := by
  cases hys : layer_ys data k with
  | nil => exact absurd hys h
  | cons y0 ys => simp only [layer_band, layer_max, layer_min, hys]

theorem mapOpt_all (f : ℕ → Option Band) (g : ℕ → Band) (l : List ℕ)
    (h : ∀ k ∈ l, f k = some (g k)) : mapOpt f l = some (l.map g) := by
  induction l with
  | nil => rfl
  | cons k ks ih =>
    simp only [mapOpt, h k (by simp), ih (fun kk hk => h kk (by simp [hk])),
      List.map_cons]

theorem raw_bands_eq (L : ℕ) (data : List ACell)
    (h : ∀ k, k < L → layer_ys data k ≠ []) :
    raw_bands L data =
      some ((List.range L).map
        (fun k => ⟨layer_max data k, layer_min data k, (k : ℝ) + 1⟩)) := by
  unfold raw_bands
  exact mapOpt_all _ _ _ (fun k hk =>
    layer_band_eq data k (h k (List.mem_range.mp hk)))

theorem mem_layer_ys (data : List ACell) (k : ℕ) (y : ℝ) :
    y ∈ layer_ys data k ↔ ∃ c ∈ data, c.layer = (k : ℤ) + 1 ∧ c.y = y := by
  simp only [layer_ys, List.mem_map, List.mem_filter, decide_eq_true_eq]
  constructor
  · rintro ⟨c, ⟨hc, hl⟩, hy⟩
    exact ⟨c, hc, hl, hy⟩
  · rintro ⟨c, hc, hl, hy⟩
    exact ⟨c, ⟨hc, hl⟩, hy⟩

theorem layer_max_le_of (data : List ACell) (k : ℕ) (B : ℝ)
    (hne : layer_ys data k ≠ []) (h : ∀ y ∈ layer_ys data k, y ≤ B) :
    layer_max data k ≤ B := by
  cases hys : layer_ys data k with
  | nil => exact absurd hys hne
  | cons y0 ys =>
    simp only [layer_max, hys]
    exact fold_max_le B y0 (y0 :: ys) (h y0 (by rw [hys]; simp))
      (fun v hv => h v (by rw [hys]; exact hv))

theorem layer_min_ge_of (data : List ACell) (k : ℕ) (B : ℝ)
    (hne : layer_ys data k ≠ []) (h : ∀ y ∈ layer_ys data k, B ≤ y) :
    B ≤ layer_min data k := by
  cases hys : layer_ys data k with
  | nil => exact absurd hys hne
  | cons y0 ys =>
    simp only [layer_min, hys]
    exact fold_min_ge B y0 (y0 :: ys) (h y0 (by rw [hys]; simp))
      (fun v hv => h v (by rw [hys]; exact hv))

theorem layer_min_le_mem (data : List ACell) (k : ℕ) (y : ℝ)
    (hy : y ∈ layer_ys data k) : layer_min data k ≤ y := by
  cases hys : layer_ys data k with
  | nil => rw [hys] at hy; simp at hy
  | cons y0 ys =>
    simp only [layer_min, hys]
    exact fold_min_le y0 (y0 :: ys) y (by rw [← hys]; exact hy)

theorem layer_min_le_layer_max (data : List ACell) (k : ℕ)
    (hne : layer_ys data k ≠ []) : layer_min data k ≤ layer_max data k := by
  cases hys : layer_ys data k with
  | nil => exact absurd hys hne
  | cons y0 ys =>
    simp only [layer_min, layer_max, hys]
    exact le_trans (fold_min_le_init y0 (y0 :: ys)) (fold_max_ge_init y0 (y0 :: ys))

theorem layer_order (data : List ACell)
    (horder : ∀ c ∈ data, ∀ c2 ∈ data, c.layer < c2.layer → c2.y ≤ c.y)
    (j j2 : ℕ) (hj : j < j2) (hne : layer_ys data j ≠ [])
    (hne2 : layer_ys data j2 ≠ []) :
    layer_max data j2 ≤ layer_min data j := by
  apply layer_max_le_of data j2 _ hne2
  intro y2 hy2
  apply layer_min_ge_of data j _ hne
  intro y hy
  obtain ⟨c2, hc2, hl2, hyc2⟩ := (mem_layer_ys data j2 y2).mp hy2
  obtain ⟨c, hc, hl, hyc⟩ := (mem_layer_ys data j y).mp hy
  subst hyc2; subst hyc
  exact horder c hc c2 hc2 (by rw [hl, hl2]; exact_mod_cast by omega)

theorem bottom_min (data : List ACell) (L : ℕ) (hL : 1 ≤ L) (ymin : ℝ)
    (hbound : ∀ c ∈ data, ymin ≤ c.y)
    (hmin : ∃ c ∈ data, c.y = ymin)
    (hrange : ∀ c ∈ data, 1 ≤ c.layer ∧ c.layer ≤ (L : ℤ))
    (horder : ∀ c ∈ data, ∀ c2 ∈ data, c.layer < c2.layer → c2.y ≤ c.y)
    (hne : layer_ys data (L - 1) ≠ []) :
    layer_min data (L - 1) = ymin := by
  have hcast : ((L - 1 : ℕ) : ℤ) + 1 = (L : ℤ) := by
    have : (1 : ℕ) ≤ L := hL
    push_cast [Nat.cast_sub this]
    ring
  apply le_antisymm
  · obtain ⟨cm, hcm, hym⟩ := hmin
    rcases eq_or_lt_of_le (hrange cm hcm).2 with heq | hlt
    · apply layer_min_le_mem data (L - 1) cm.y ?_ |>.trans (le_of_eq hym)
      exact (mem_layer_ys data (L - 1) cm.y).mpr ⟨cm, hcm, by rw [heq, hcast], rfl⟩
    · obtain ⟨yb, hyb⟩ := List.exists_mem_of_ne_nil _ hne
      obtain ⟨cb, hcb, hlb, hybc⟩ := (mem_layer_ys data (L - 1) yb).mp hyb
      have hble : cb.y ≤ cm.y :=
        horder cm hcm cb hcb (by rw [hlb, hcast]; exact hlt)
      have hbge : ymin ≤ cb.y := hbound cb hcb
      have : cb.y = ymin := le_antisymm (hym ▸ hble) hbge
      calc layer_min data (L - 1) ≤ yb := layer_min_le_mem data (L - 1) yb hyb
        _ = ymin := by rw [← hybc, this]
  · apply layer_min_ge_of data (L - 1) ymin hne
    intro y hy
    obtain ⟨c, hc, _, hyc⟩ := (mem_layer_ys data (L - 1) y).mp hy
    exact hyc ▸ hbound c hc

end LayerLemmas

section MoreHelpers

theorem get_opt_eq (l : List ℝ) (i : ℕ) (h : i < l.length) :
    l.get? i = some (l.getD i 0) := by
  induction l generalizing i with
  | nil => simp at h
  | cons x xs ih =>
    cases i with
    | zero => simp [List.getD_cons_zero]
    | succ m =>
      simp only [List.get?_cons_succ, List.getD_cons_succ]
      exact ih m (by simpa using h)

end MoreHelpers

/-- Claim C4: for every input cell set, seed type and compare type, the
histogram produced by the cluster function is monotonically non decreasing
in index, since each counted pair increments every bin from its matching
bin through the last bin. -/
theorem c4_monotone (ad iv : ℕ) (E : ℝ) (sp : List ACell) (ct1 ct2 : ℤ)
    (i : ℕ) (hi : i + 1 < (cluster ad iv E sp ct1 ct2).length) :
    (cluster ad iv E sp ct1 ct2).getD i 0 ≤
      (cluster ad iv E sp ct1 ct2).getD (i + 1) 0 :=
  cluster_mono ad iv E sp ct1 ct2 i hi

theorem c4_witness :
    (cluster 2 1 0 [] 1 1).getD 0 0 ≤ (cluster 2 1 0 [] 1 1).getD 1 0 :=
  c4_monotone 2 1 0 [] 1 1 0 (by rw [cluster_length]; norm_num)

/-- Claim C5: when the two compared types coincide the observed histogram
is a single cluster call with seed = compare = that type, and when they
differ it is the bin wise arithmetic mean of the two directional cluster
calls, as computed by cluster_average at the module top level. -/
theorem c5_symmetry (ad iv : ℕ) (E : ℝ) (sp : List ACell) (ct1 ct2 : ℤ) :
    (ct1 = ct2 → pair_histogram ad iv E sp ct1 ct2 = cluster ad iv E sp ct1 ct1) ∧
    (ct1 ≠ ct2 → ∀ i, i < ad →
      (pair_histogram ad iv E sp ct1 ct2).getD i 0 =
        ((cluster ad iv E sp ct1 ct2).getD i 0 +
         (cluster ad iv E sp ct2 ct1).getD i 0) / 2) := by
  constructor
  · intro h; unfold pair_histogram; rw [if_pos h]
  · intro h i hi
    unfold pair_histogram
    rw [if_neg h]
    exact cluster_average_getD ad _ _ i hi (by rw [cluster_length])

theorem c5_witness :
    (pair_histogram 2 1 0 [] 1 1 = cluster 2 1 0 [] 1 1) ∧
    (pair_histogram 2 1 0 [] 1 2).getD 0 0 =
      ((cluster 2 1 0 [] 1 2).getD 0 0 + (cluster 2 1 0 [] 2 1).getD 0 0) / 2 :=
  ⟨(c5_symmetry 2 1 0 [] 1 1).1 rfl,
   (c5_symmetry 2 1 0 [] 1 2).2 (by norm_num) 0 (by norm_num)⟩

/-- Claim C6: with the configured relation interval_num = analysis_dist
(both equal the positive configured distance bound cfg, as in the source
where both are 100, and with the incremented global equal to cfg + 1), a
compare cell whose distance d from the seed fails 0 < d and d <= cfg never
changes the histogram: d = 0 and d >= cfg + 1 are rejected by the distance
guard, and cfg < d < cfg + 1 is mapped to bin ceil(d) = cfg + 1 so the
increment loop range(cfg + 1, cfg + 1) is empty. -/
theorem c6_pair_skip (cfg : ℕ) (hcfg : 1 ≤ cfg) (ct2 : ℤ) (xloc yloc : ℝ)
    (cc : ACell) (h : List ℝ)
    (hd : ¬(0 < pair_dist xloc yloc cc.x cc.y ∧
        pair_dist xloc yloc cc.x cc.y ≤ (cfg : ℝ))) :
    pair_step (cfg + 1) cfg ct2 xloc yloc h cc = h := by
  unfold pair_step
  split
  · split
    next hguard =>
      obtain ⟨hpos, hlt⟩ := hguard
      have hgt : (cfg : ℝ) < pair_dist xloc yloc cc.x cc.y := by
        by_contra hle
        push_neg at hle
        exact hd ⟨hpos, hle⟩
      have hne : (cfg : ℝ) ≠ 0 := by
        have : (0 : ℝ) < (cfg : ℝ) := by exact_mod_cast hcfg
        linarith

      have htar : array_target (cfg + 1) cfg (pair_dist xloc yloc cc.x cc.y)
          = (cfg : ℤ) + 1 := by
        unfold array_target
        rw [show ((cfg + 1 : ℕ) : ℝ) - 1 = (cfg : ℝ) by push_cast; ring]
        rw [mul_div_assoc, div_self hne, mul_one]
        rw [Int.ceil_eq_iff]
        constructor
        · push_cast
          linarith
        · push_cast
          have : pair_dist xloc yloc cc.x cc.y < ((cfg + 1 : ℕ) : ℝ) := hlt
          push_cast at this
          linarith
      rw [htar]
      apply addSuffix_id
      intro i
      rintro ⟨hi1, hi2⟩
      omega
    next => rfl
  · rfl

theorem c6_witness :
    pair_step 21 20 1 0 0 (List.replicate 21 0) ⟨1, 50, 0, 1, 0, 0, 0, 0⟩ =
      List.replicate 21 0 := by
  have hps : pair_dist 0 0 (50 : ℝ) 0 = 50 := by
    unfold pair_dist
    rw [show ((0 : ℝ) - 50) ^ 2 + ((0 : ℝ) - 0) ^ 2 = 50 ^ 2 by norm_num]
    exact Real.sqrt_sq (by norm_num)
  exact c6_pair_skip 20 (by norm_num) 1 0 0 ⟨1, 50, 0, 1, 0, 0, 0, 0⟩
    (List.replicate 21 0)
    (by
      rintro ⟨h1, h2⟩
      rw [show (ACell.mk 1 50 0 1 0 0 0 0).x = (50 : ℝ) from rfl,
        show (ACell.mk 1 50 0 1 0 0 0 0).y = (0 : ℝ) from rfl, hps] at h2
      norm_num at h2)

/-- Claim C7: the cluster function returns a histogram of exactly
analysis_dist + 1 bins for the configured value ad (the incremented global
is ad + 1 and the list is created with that many zero bins), the simulated
baseline and the density corrected output have the same length, and on an
empty cell set the histogram is exactly the zero initialization. -/
theorem c7_length (ad iv : ℕ) (E : ℝ) (sp : List ACell)
    (gen : ℕ → List ACell) (N : ℤ) (ct1 ct2 : ℤ) :
    (cluster (ad + 1) iv E sp ct1 ct2).length = ad + 1 ∧
    cluster (ad + 1) iv E [] ct1 ct2 = List.replicate (ad + 1) 0 ∧
    (∀ out, sim_iterate (ad + 1) iv E gen N ct1 ct2 = some out →
      out.length = ad + 1) ∧
    (∀ raw sim, (sim_correct (ad + 1) raw sim).length = ad + 1) :=
  ⟨cluster_length (ad + 1) iv E sp ct1 ct2,
   cluster_empty (ad + 1) iv E ct1 ct2,
   fun out h => sim_iterate_some_length (ad + 1) iv E gen N ct1 ct2 out h,
   fun raw sim => sim_correct_length (ad + 1) raw sim⟩

theorem c7_witness : (List.replicate 2 (0 : ℝ)).length = 2 :=
  (c7_length 1 1 0 [] (fun _ => []) (-1) 1 1).2.2.1 (List.replicate 2 0)
    (sim_iterate_neg 2 1 0 (fun _ => []) (-1) 1 1 (by norm_num))

/-- Claim C8 counterexample: the orchestrator does not reject a negative
run count; with sim_run_num = -2 the simulation loop body never runs and
sim_iterate returns the all zero baseline rather than failing, refuting the
claim that a baseline is never produced for a non positive run count. -/
theorem c8_counterexample :
    sim_iterate 21 20 0 (fun _ => []) (-2) 1 1 = some (List.replicate 21 0) :=
  sim_iterate_neg 21 20 0 (fun _ => []) (-2) 1 1 (by norm_num)

/-- Claim C8 (amended): the code performs no validation of sim_run_num.
For every negative run count the xrange loop is empty and sim_iterate
returns the all zero baseline (each bin is 0 divided by the run count);
for run count zero it aborts with an uncaught ZeroDivisionError (modelled
as none) during the averaging loop, not with an InvalidParameter check
before computation. -/
theorem c8_amended (ad iv : ℕ) (E : ℝ) (gen : ℕ → List ACell) (ct1 ct2 : ℤ) :
    (∀ N : ℤ, N < 0 →
      sim_iterate ad iv E gen N ct1 ct2 = some (List.replicate ad 0)) ∧
    (0 < ad → sim_iterate ad iv E gen 0 ct1 ct2 = none) :=
  ⟨fun N hN => sim_iterate_neg ad iv E gen N ct1 ct2 hN,
   fun had => sim_iterate_zero ad iv E gen ct1 ct2 had⟩

theorem c8_witness :
    sim_iterate 2 1 0 (fun _ => []) (-3) 1 1 = some (List.replicate 2 0) ∧
    sim_iterate 2 1 0 (fun _ => []) 0 1 1 = none :=
  ⟨(c8_amended 2 1 0 (fun _ => []) 1 1).1 (-3) (by norm_num),
   (c8_amended 2 1 0 (fun _ => []) 1 1).2 (by norm_num)⟩

/-- Claim C9: for positive configured analysis_dist (so the incremented
global ad is at least 2) and positive interval_num, bin 0 of every cluster
histogram is 0, because every counted pair has d > 0 and its target bin
ceil(d * (ad - 1) / interval_num) is at least 1; the zero is preserved by
directional averaging, simulation averaging and density correction, so
index 0 of the final output is always 0. -/
theorem c9_bin_zero (ad iv : ℕ) (E : ℝ) (sp : List ACell)
    (gen : ℕ → List ACell) (N : ℤ) (ct1 ct2 : ℤ) (h2 : 2 ≤ ad) (h1 : 1 ≤ iv) :
    (cluster ad iv E sp ct1 ct2).getD 0 0 = 0 ∧
    ∀ out, sp_output ad iv E sp gen N ct1 ct2 = some out →
      out.get? 0 = some 0 := by
  constructor
  · exact cluster_getD_zero ad iv h2 h1 E sp ct1 ct2
  · intro out hout
    unfold sp_output at hout
    cases hsim : sim_iterate ad iv E gen N ct1 ct2 with
    | none => rw [hsim] at hout; simp at hout
    | some sim =>
      rw [hsim] at hout
      simp only [Option.map_some', Option.some.injEq] at hout
      have h0 : out.getD 0 0 = 0 := by
        rw [← hout, sim_correct_getD ad _ sim 0 (by omega)]
        split_ifs with hc
        · rw [pair_histogram_getD_zero ad iv h2 h1 E sp ct1 ct2]
          exact zero_div _
        · rfl
      have hlen : 0 < out.length := by
        rw [← hout, sim_correct_length]
        omega
      rw [get_opt_eq out 0 hlen, h0]

/-- Claim C10: a boundary annotated cell set whose bounding box is at most
2 * exclude_dist wide or 2 * exclude_dist tall yields the all zero
histogram for every seed and compare type: the two opposite edge distances
of a cell sum to the box extent on that axis, so both cannot strictly
exceed exclude_dist and no cell passes the seed test. -/
theorem c10_degenerate (E : ℝ) (sp : List Cell) (adata : List ACell)
    (xmin xmax ymin ymax : ℝ)
    (hb : boundaries sp = some (adata, xmin, xmax, ymin, ymax))
    (hdeg : xmax - xmin ≤ 2 * E ∨ ymax - ymin ≤ 2 * E)
    (ad iv : ℕ) (ct1 ct2 : ℤ) :
    cluster ad iv E adata ct1 ct2 = List.replicate ad 0 := by
  cases sp with
  | nil => simp [boundaries] at hb
  | cons c0 cs =>
    simp only [boundaries, Option.some.injEq, Prod.mk.injEq] at hb
    obtain ⟨rfl, rfl, rfl, rfl, rfl⟩ := hb
    apply cluster_all_excluded
    intro c hc
    obtain ⟨c', hc', rfl⟩ := List.mem_map.mp hc
    rintro ⟨hct, h1, h2, h3, h4⟩
    simp only [annotate] at h1 h2 h3 h4
    have hxminle : fold_min c0.x ((c0 :: cs).map (fun c => c.x)) ≤ c'.x :=
      fold_min_le _ _ _ (List.mem_map_of_mem _ hc')
    have hxmaxge : c'.x ≤ fold_max c0.x ((c0 :: cs).map (fun c => c.x)) :=
      fold_max_ge _ _ _ (List.mem_map_of_mem _ hc')
    have hyminle : fold_min c0.y ((c0 :: cs).map (fun c => c.y)) ≤ c'.y :=
      fold_min_le _ _ _ (List.mem_map_of_mem _ hc')
    have hymaxge : c'.y ≤ fold_max c0.y ((c0 :: cs).map (fun c => c.y)) :=
      fold_max_ge _ _ _ (List.mem_map_of_mem _ hc')
    rcases hdeg with hx | hy
    · rw [abs_of_nonneg (by linarith)] at h1
      rw [abs_of_nonneg (by linarith)] at h2
      linarith
    · rw [abs_of_nonneg (by linarith)] at h3
      rw [abs_of_nonneg (by linarith)] at h4
      linarith

theorem c9_witness :
    (cluster 2 1 0 [] 1 1).getD 0 0 = 0 ∧ ([(0 : ℝ), 0].get? 0 = some 0) := by
  have happ := c9_bin_zero 2 1 0 [] (fun _ => []) (-1) 1 1 (by norm_num) (by norm_num)
  refine ⟨happ.1, happ.2 [0, 0] ?_⟩
  unfold sp_output
  rw [sim_iterate_neg 2 1 0 (fun _ => []) (-1) 1 1 (by norm_num)]
  simp only [Option.map_some', Option.some.injEq]
  rw [show pair_histogram 2 1 0 [] 1 1 = List.replicate 2 0 by
    unfold pair_histogram
    rw [if_pos rfl]
    rfl]
  unfold sim_correct
  rw [show List.range 2 = [0, 1] from rfl,
    show List.replicate 2 (0 : ℝ) = [0, 0] from rfl]
  norm_num [List.getD_cons_zero, List.getD_cons_succ]

theorem c10_witness :
    cluster 2 1 3 [⟨1, 0, 0, 1, 0, 5, 0, 0⟩, ⟨1, 5, 0, 1, 5, 0, 0, 0⟩] 1 1 =
      List.replicate 2 0 := by
  apply c10_degenerate 3 [⟨1, 0, 0, 1⟩, ⟨1, 5, 0, 1⟩] _ 0 5 0 0 ?_
    (Or.inl (by norm_num)) 2 1 1 1
  unfold boundaries
  simp only [List.map, annotate, fold_min, fold_max, List.foldl]
  norm_num

/-- Claim C3 counterexample: the density corrector does not produce an
undefined or null sentinel at a zero divisor: for observed [2, 4, 4] and
simulated average [1, 2, 0] the code output is the plain numeric list
[2, 2, 0], whose third entry is the ordinary real number 0 left over from
the initialization, while the behaviour the claim describes (modelled by
sim_correct_spec) has the sentinel none there; the two disagree. -/
theorem c3_counterexample :
    sim_correct 3 [2, 4, 4] [1, 2, 0] = [2, 2, 0] ∧
    sim_correct_spec [2, 4, 4] [1, 2, 0] = [some 2, some 2, none] ∧
    (sim_correct 3 [2, 4, 4] [1, 2, 0]).map some ≠
      sim_correct_spec [2, 4, 4] [1, 2, 0] := by
  have h1 : sim_correct 3 [2, 4, 4] [1, 2, 0] = [2, 2, 0] := by
    unfold sim_correct
    rw [show List.range 3 = [0, 1, 2] from rfl]
    norm_num [List.getD_cons_zero, List.getD_cons_succ]
  have h2 : sim_correct_spec [2, 4, 4] [1, 2, 0] = [some 2, some 2, none] := by
    unfold sim_correct_spec
    norm_num [List.zipWith]
  refine ⟨h1, h2, ?_⟩
  rw [h1, h2]
  simp

/-- Claim C3 (amended): for equal length inputs of the configured length,
the density corrector returns observed[i] / simulated[i] at every index
whose simulated value is nonzero; at an index whose simulated value is
zero the busy slot keeps its 0.0 initialization (the ZeroDivisionError is
swallowed), an ordinary numeric zero rather than an undefined sentinel, so
the example output is [2.0, 2.0, 0.0]. -/
theorem c3_amended (ad : ℕ) (raw sim : List ℝ) (hr : raw.length = ad)
    (hs : sim.length = ad) (i : ℕ) (hi : i < ad) :
    (sim.getD i 0 ≠ 0 →
      (sim_correct ad raw sim).getD i 0 = raw.getD i 0 / sim.getD i 0) ∧
    (sim.getD i 0 = 0 → (sim_correct ad raw sim).getD i 0 = 0) := by
  constructor
  · intro hne
    rw [sim_correct_getD ad raw sim i hi, if_pos ⟨by omega, by omega, hne⟩]
  · intro heq
    rw [sim_correct_getD ad raw sim i hi,
      if_neg (by rintro ⟨-, -, hcon⟩; exact hcon heq)]

theorem c3_witness :
    (sim_correct 3 [2, 4, 4] [1, 2, 0]).getD 2 0 = 0 ∧
    (sim_correct 3 [2, 4, 4] [1, 2, 0]).getD 0 0 = 2 / 1 := by
  constructor
  · exact (c3_amended 3 [2, 4, 4] [1, 2, 0] (by simp) (by simp) 2
      (by norm_num)).2 rfl
  · exact (c3_amended 3 [2, 4, 4] [1, 2, 0] (by simp) (by simp) 0
      (by norm_num)).1 (by norm_num)

theorem exC1_eval :
    boundaries exCellsC1 = some (exAnnotC1, 0, 50, 0, 0) ∧
    cluster 21 20 0 exAnnotC1 1 1 = List.replicate 21 0 := by
  constructor
  · unfold boundaries exCellsC1 exAnnotC1
    simp only [List.map, annotate, fold_min, fold_max, List.foldl]
    norm_num
  · apply cluster_all_excluded
    intro c hc
    simp only [exAnnotC1, List.mem_cons, List.not_mem_nil, or_false] at hc
    rintro ⟨hct, h1, h2, h3, h4⟩
    rcases hc with rfl | rfl | rfl <;> norm_num at h3

/-- Claim C1 counterexample: on the end to end scenario of three cells of
type 1 at (0,0), (10,0), (50,0) in layer 1, with analysis_dist = 20 (so
the incremented global is 21), interval_num = 20, exclude_dist = 0 and
seed = compare = 1, the histogram bin at distance 10 is 0, not the claimed
2: the bounding box of the scenario is degenerate in y (ymin = ymax = 0),
every cell has zero distance to both y edges, and the strict seed test
distance > exclude_dist excludes every seed. -/
theorem c1_counterexample :
    (boundaries exCellsC1).map
        (fun r => (cluster 21 20 0 r.1 1 1).getD 10 0) = some 0 ∧
    (0 : ℝ) ≠ 2 := by
  refine ⟨?_, by norm_num⟩
  rw [exC1_eval.1]
  simp only [Option.map_some']
  show some ((cluster 21 20 0 exAnnotC1 1 1).getD 10 0) = some 0
  rw [exC1_eval.2, getD_replicate]

/-- Claim C1 (amended): on the end to end scenario the accumulator returns
the all zero histogram of length 21: because all three cells lie on the
line y = 0, the annotated distances to the two y edges are 0 for every
cell, the strict comparison with exclude_dist = 0 fails, no cell qualifies
as a seed, and no bin is ever incremented. -/
theorem c1_amended :
    (boundaries exCellsC1).map (fun r => cluster 21 20 0 r.1 1 1) =
      some (List.replicate 21 0) := by
  rw [exC1_eval.1]
  simp only [Option.map_some']
  show some (cluster 21 20 0 exAnnotC1 1 1) = _
  rw [exC1_eval.2]

/-- Claim C2 (amended): for layer_num at least 4 (as configured, 6), a
boundary annotated cell set with at least one cell in each declared layer,
every layer label within range, and the layers vertically ordered (cells
of a lower numbered layer lie at y at least as high as cells of any higher
numbered layer), the band list tiles the y range exactly: adjacent bands
share the single boundary equal to the average of the raw minimum of the
lower numbered layer and the raw maximum of the higher numbered layer, the band
of layer 1 has its upper edge pinned to the global ymax, and the band of
the last layer has as lower edge the raw minimum of that layer, which
under the ordering equals the global ymin.  Without the ordering
hypothesis the bottom pinning fails, because the assignment of ymin in the
source indexes position layer_num - 1 of the first band triple and the
resulting IndexError is silently swallowed. -/
theorem c2_amended (L : ℕ) (hL : 4 ≤ L) (data : List ACell) (ymin ymax : ℝ)
    (hbound : ∀ c ∈ data, ymin ≤ c.y ∧ c.y ≤ ymax)
    (hmin : ∃ c ∈ data, c.y = ymin)
    (hlayers : ∀ k, k < L → layer_ys data k ≠ [])
    (hrange : ∀ c ∈ data, 1 ≤ c.layer ∧ c.layer ≤ (L : ℤ))
    (horder : ∀ c ∈ data, ∀ c2 ∈ data, c.layer < c2.layer → c2.y ≤ c.y) :
    ∃ bl, layer_ybound L data ymin ymax = some bl ∧
      bl.length = L ∧
      (bl.getD 0 bd).hi = ymax ∧
      (bl.getD (L - 1) bd).lo = ymin ∧
      (∀ j, j + 1 < L → (bl.getD j bd).lo = (bl.getD (j + 1) bd).hi ∧
        (bl.getD j bd).lo = (layer_min data j + layer_max data (j + 1)) / 2) ∧
      (∀ j, j < L → (bl.getD j bd).lo ≤ (bl.getD j bd).hi) ∧
      (∀ j, j < L → (bl.getD j bd).lid = (j : ℝ) + 1) := by
  have hget0 : ∀ j, j < L →
      ((List.range L).map
        (fun k => (⟨layer_max data k, layer_min data k, (k : ℝ) + 1⟩ : Band))).getD j bd =
      ⟨layer_max data j, layer_min data j, (j : ℝ) + 1⟩ := by
    intro j hj
    exact getD_range_map _ bd L j hj
  have hbavg : ∀ j, j + 1 < L →
      bavg ((List.range L).map
        (fun k => (⟨layer_max data k, layer_min data k, (k : ℝ) + 1⟩ : Band))) j =
      (layer_min data j + layer_max data (j + 1)) / 2 := by
    intro j hj
    unfold bavg
    rw [hget0 j (by omega), hget0 (j + 1) hj]
  have hpref := stitch_closed_form L hL ymin ymax
    ((List.range L).map
      (fun k => (⟨layer_max data k, layer_min data k, (k : ℝ) + 1⟩ : Band)))
    (by simp) (L - 1) (by omega) (le_refl _)
  have hMle : ∀ k, k < L → layer_max data k ≤ ymax := fun k hk =>
    layer_max_le_of data k ymax (hlayers k hk) (fun y hy => by
      obtain ⟨c, hc, _, rfl⟩ := (mem_layer_ys data k y).mp hy
      exact (hbound c hc).2)
  have hmM : ∀ k, k < L → layer_min data k ≤ layer_max data k := fun k hk =>
    layer_min_le_layer_max data k (hlayers k hk)
  have hord : ∀ k, k + 1 < L → layer_max data (k + 1) ≤ layer_min data k :=
    fun k hk => layer_order data horder k (k + 1) (by omega)
      (hlayers k (by omega)) (hlayers (k + 1) hk)
  have hbot : layer_min data (L - 1) = ymin :=
    bottom_min data L (by omega) ymin (fun c hc => (hbound c hc).1) hmin hrange
      horder (hlayers (L - 1) (by omega))
  refine ⟨(List.range (L - 1)).foldl (stitch_step L ymin ymax)
      ((List.range L).map
        (fun k => (⟨layer_max data k, layer_min data k, (k : ℝ) + 1⟩ : Band))),
    ?_, hpref.1, ?_, ?_, ?_, ?_, ?_⟩
  · unfold layer_ybound
    rw [raw_bands_eq L data hlayers]
    rfl
  · rw [hpref.2 0 (by omega)]
    simp
  · rw [hpref.2 (L - 1) (by omega)]
    show (if L - 1 + 1 ≤ L - 1 then _ else _) = ymin
    rw [if_neg (show ¬(L - 1 + 1 ≤ L - 1) by omega)]
    rw [hget0 (L - 1) (by omega)]
    exact hbot
  · intro j hj
    constructor
    · rw [hpref.2 j (by omega), hpref.2 (j + 1) hj]
      show (if j + 1 ≤ L - 1 then _ else _) =
        (if j + 1 = 0 then ymax else if j + 1 ≤ L - 1 then _ else _)
      rw [if_pos (show j + 1 ≤ L - 1 by omega),
        if_neg (show ¬(j + 1 = 0) by omega),
        if_pos (show j + 1 ≤ L - 1 by omega)]
      rfl
    · rw [hpref.2 j (by omega)]
      show (if j + 1 ≤ L - 1 then _ else _) = _
      rw [if_pos (show j + 1 ≤ L - 1 by omega)]
      exact hbavg j hj
  · intro j hj
    rw [hpref.2 j (by omega)]
    dsimp only
    rcases Nat.eq_zero_or_pos j with rfl | hjpos
    · rw [if_pos (show 0 + 1 ≤ L - 1 by omega), if_pos rfl,
        hbavg 0 (by omega)]
      have h1 := hord 0 (by omega)
      have h2 := hmM 0 (by omega)
      have h3 := hMle 0 (by omega)
      linarith
    · obtain ⟨jj, rfl⟩ : ∃ jj, j = jj + 1 := ⟨j - 1, by omega⟩
      rw [if_neg (show ¬(jj + 1 = 0) by omega),
        if_pos (show jj + 1 ≤ L - 1 by omega)]
      by_cases hmid : jj + 1 + 1 ≤ L - 1
      · rw [if_pos hmid]
        rw [hbavg (jj + 1) (by omega)]
        rw [show (jj + 1) - 1 = jj from rfl, hbavg jj (by omega)]
        have h1 := hord (jj + 1) (by omega)
        have h2 := hmM (jj + 1) (by omega)
        have h3 := hord jj (by omega)
        linarith
      · rw [if_neg hmid]
        rw [hget0 (jj + 1) hj]
        dsimp only
        rw [show (jj + 1) - 1 = jj from rfl, hbavg jj (by omega)]
        have h2 := hmM (jj + 1) (by omega)
        have h3 := hord jj (by omega)
        linarith
  · intro j hj
    rw [hpref.2 j (by omega), hget0 j hj]

theorem c2_witness :
    ∃ bl, layer_ybound 4 exData2 0 3 = some bl ∧
      bl.length = 4 ∧
      (bl.getD 0 bd).hi = 3 ∧
      (bl.getD 3 bd).lo = 0 ∧
      (∀ j, j + 1 < 4 → (bl.getD j bd).lo = (bl.getD (j + 1) bd).hi ∧
        (bl.getD j bd).lo =
          (layer_min exData2 j + layer_max exData2 (j + 1)) / 2) ∧
      (∀ j, j < 4 → (bl.getD j bd).lo ≤ (bl.getD j bd).hi) ∧
      (∀ j, j < 4 → (bl.getD j bd).lid = (j : ℝ) + 1) := by
  refine c2_amended 4 (by norm_num) exData2 0 3 ?_ ?_ ?_ ?_ ?_
  · intro c hc
    simp only [exData2, List.mem_cons, List.not_mem_nil, or_false] at hc
    rcases hc with rfl | rfl | rfl | rfl <;> norm_num
  · refine ⟨⟨1, 0, 0, 4, 0, 0, 0, 3⟩, ?_, rfl⟩
    simp [exData2]
  · intro k hk
    interval_cases k <;> simp [layer_ys, exData2]
  · intro c hc
    simp only [exData2, List.mem_cons, List.not_mem_nil, or_false] at hc
    rcases hc with rfl | rfl | rfl | rfl <;> norm_num
  · intro c hc c2 hc2 hlt
    simp only [exData2, List.mem_cons, List.not_mem_nil, or_false] at hc hc2
    rcases hc with rfl | rfl | rfl | rfl <;>
      rcases hc2 with rfl | rfl | rfl | rfl <;>
      (try exact absurd hlt (by decide)) <;> norm_num

/-- Claim C2 counterexample: a boundary annotated six layer cell set in
which the global minimum y = 0 is attained by a cell of layer 1 rather
than of layer 6: the stitched band of layer 6 keeps its raw lower edge 1,
which differs from the global ymin = 0, so the bands do not tile
[ymin, ymax] and the bottommost lower edge is not pinned to ymin. -/
theorem c2_counterexample :
    ((boundaries exCellsC2).bind fun r =>
      (layer_ybound 6 r.1 r.2.2.2.1 r.2.2.2.2).map
        fun bl => ((bl.getD 5 bd).lo, r.2.2.2.1)) = some (1, 0) ∧
    (1 : ℝ) ≠ 0 := by
  refine ⟨?_, by norm_num⟩
  have hb : boundaries exCellsC2 = some (exAnnotC2, 0, 0, 0, 6) := by
    unfold boundaries exCellsC2 exAnnotC2
    simp only [List.map, annotate, fold_min, fold_max, List.foldl]
    norm_num
  rw [hb]
  show (layer_ybound 6 exAnnotC2 0 6).map
      (fun bl => ((bl.getD 5 bd).lo, (0 : ℝ))) = some (1, 0)
  have hlayers : ∀ k, k < 6 → layer_ys exAnnotC2 k ≠ [] := by
    intro k hk
    interval_cases k <;> simp [layer_ys, exAnnotC2]
  have hyb : layer_ybound 6 exAnnotC2 0 6 =
      some ((List.range (6 - 1)).foldl (stitch_step 6 0 6)
        ((List.range 6).map
          (fun k =>
            (⟨layer_max exAnnotC2 k, layer_min exAnnotC2 k, (k : ℝ) + 1⟩ : Band)))) := by
    unfold layer_ybound
    rw [raw_bands_eq 6 exAnnotC2 hlayers]
    rfl
  rw [hyb]
  simp only [Option.map_some', Option.some.injEq, Prod.mk.injEq]
  refine ⟨?_, trivial⟩
  have hgd := (stitch_closed_form 6 (by norm_num) 0 6
    ((List.range 6).map
      (fun k =>
        (⟨layer_max exAnnotC2 k, layer_min exAnnotC2 k, (k : ℝ) + 1⟩ : Band)))
    (by simp) 5 (by norm_num) (by norm_num)).2 5 (by norm_num)
  rw [show (6 : ℕ) - 1 = 5 from rfl, hgd]
  dsimp only
  rw [if_neg (by omega : ¬(5 + 1 ≤ 5))]
  rw [getD_range_map _ bd 6 5 (by norm_num)]
  show fold_min 1 [1] = 1
  norm_num [fold_min]

end SP
